import Mathlib

/-!
Formalisation of the audio_utils FIFO of android_system_media
(src/audio_utils/include/audio_utils/fifo.h): a single-writer ring buffer
with 32-bit wrapping frame indices, capacity `N` (mFrameCount), power-of-two
ceiling `P` (mFrameCountP2) and fudge factor `F = P - N` (mFudgeFactor).
The repository ships only the header; the operation bodies are modelled from
the specification document, and each such definition says so in its doc
comment.
-/

/-- Error codes surfaced by the FIFO (fifo.h lines 174-176): `ioError` (the -EIO code) for
corrupted indices, `eOverflow` when the reader is not keeping up with the
writer. -/
inductive FifoError where
  | eOverflow
  | ioError
deriving DecidableEq

namespace audio_utils_fifo_base

/-- Raw indices are 32-bit words (fifo.h line 41): all raw-index arithmetic
is taken modulo `2 ^ 32`. -/
def wordMod : ℕ := 2 ^ 32

/-- Modelled from the spec: the body of `audio_utils_fifo_base::sum`
(declared at fifo.h line 73, implemented outside this repository).
Spec section 4.2: with current slot `index mod P`, `sum(index, k)` returns
`index + k + (F if the new slot would exceed N-1 else 0)`, with 32-bit
wraparound. -/
def sum (N P F : ℕ) (index increment : ℕ) : ℕ :=
  (index + increment + (if N ≤ index % P + increment then F else 0)) % wordMod

/-- Raw 32-bit difference `(rear - front) mod 2^32` of two raw indices. -/
def rawDelta (rear front : ℕ) : ℕ :=
  (rear + wordMod - front) % wordMod

/-- Modelled from the spec: section 4.2, conversion of a raw delta from raw
space to frames space, subtracting one fudge `F` for every complete sweep of
`P` the delta implies. -/
def framesDelta (P F : ℕ) (rear front : ℕ) : ℕ :=
  rawDelta rear front - F * (rawDelta rear front / P)

/-- Modelled from the spec: the body of `audio_utils_fifo_base::diff`
(declared at fifo.h line 83, implemented outside this repository).
Spec section 4.2: the raw delta is read as a signed 32-bit value; a negative
delta (raw delta at least `2^31`) is corruption reported as an I/O error.
Otherwise the delta is converted to frames space and must satisfy
`0 ≤ diff ≤ N`; a frames delta beyond `N` means the writer lapped the reader
and is reported as overflow. -/
def diff (N P F : ℕ) (rear front : ℕ) : Except FifoError ℕ :=
  if 2 ^ 31 ≤ rawDelta rear front then
    .error .ioError
  else if framesDelta P F rear front ≤ N then
    .ok (framesDelta P F rear front)
  else
    .error .eOverflow

/-- Modelled from the spec: section 4.2, the estimate stored through the
`lost` out-parameter on overflow: the number of frames skipped, `diff - N`,
clamped at zero. -/
def diffLost (N P F : ℕ) (rear front : ℕ) : ℕ :=
  framesDelta P F rear front - N

end audio_utils_fifo_base

namespace audio_utils_fifo_reader

/-- Outcome of the index-handling step of the reader's `obtain`: the error it
reports (if any), the possibly resynchronised local front, the fill level it
continues with, and what it stores through the `lost` out-parameter. -/
structure ObtainSyncOut where
  err      : Option FifoError
  newFront : ℕ
  fill     : ℕ
  lost     : Option ℕ
deriving DecidableEq

/-- Modelled from the spec: the index-handling step of
`audio_utils_fifo_reader::obtain` (declared at fifo.h lines 257-262,
implemented outside this repository).  Spec section 4.5 step 2: compute
`fill = diff(rear, localFront, &lost)`; on overflow report it, resynchronise
`localFront := rear - N` (the oldest still-valid frame), store the drop
estimate through `lost` when the pointer is non-NULL, and continue with
`fill := N`; on an I/O error report it and make no progress. -/
def obtainSync (N P F : ℕ) (rear front : ℕ) (wantLost : Bool) : ObtainSyncOut :=
  match audio_utils_fifo_base.diff N P F rear front with
  | .ok fill => ⟨none, front, fill, none⟩
  | .error .eOverflow =>
      ⟨some .eOverflow,
        (rear + audio_utils_fifo_base.wordMod - N) % audio_utils_fifo_base.wordMod,
        N,
        if wantLost then some (audio_utils_fifo_base.diffLost N P F rear front) else none⟩
  | .error .ioError => ⟨some .ioError, front, 0, none⟩

/-- Reader-endpoint state relevant to `release`: the local front index,
whether this reader throttles the writer (fifo.h line 271, non-NULL
`mThrottleFront`), and the arm flag of the trigger state machine
(fifo.h lines 273-276). -/
structure ReaderState where
  mLocalFront : ℕ
  throttles   : Bool
  mArmed      : Bool
deriving DecidableEq

/-- Observable effect of a reader `release`: the new endpoint state, the
value stored to the shared throttling front (`none` when no store is
performed), and whether the waiters on the rear index are woken. -/
structure ReleaseEffect where
  state     : ReaderState
  published : Option ℕ
  wake      : Bool
deriving DecidableEq

/-- Modelled from the spec: the body of `audio_utils_fifo_reader::release`
(declared at fifo.h line 258, implemented outside this repository).
Spec section 4.5: `release(k)` advances `localFront` by `k` via `sum`; if
this reader throttles the writer it publishes the new front to the shared
throttling front (release ordering), then runs the symmetric trigger: if
armed and the post-release fill is at most `lowLevelTrigger`, wake the
rear-index waiters and disarm; rearm when the fill reaches `highLevelArm`.
Non-throttling readers do not publish and do not wake. -/
def release (N P F mLowLevelTrigger mHighLevelArm rear : ℕ)
    (s : ReaderState) (k : ℕ) : ReleaseEffect :=
  let newFront := audio_utils_fifo_base.sum N P F s.mLocalFront k
  if s.throttles then
    let fill := audio_utils_fifo_base.framesDelta P F rear newFront
    if s.mArmed ∧ fill ≤ mLowLevelTrigger then
      ⟨⟨newFront, true, false⟩, some newFront, true⟩
    else if ¬ s.mArmed ∧ mHighLevelArm ≤ fill then
      ⟨⟨newFront, true, true⟩, some newFront, false⟩
    else
      ⟨⟨newFront, true, s.mArmed⟩, some newFront, false⟩
  else
    ⟨⟨newFront, false, s.mArmed⟩, none, false⟩

/-- Default value of the `throttlesWriter` parameter of the
`audio_utils_fifo_reader` constructor, fifo.h line 238. -/
def throttlesWriterDefault : Bool := true

/-- Constraint documented at fifo.h line 237: at most one reader per FIFO may
be constructed with `throttlesWriter == true`.  `throttleFlags` lists the
`throttlesWriter` argument of each constructed reader. -/
def atMostOneThrottlingReader (throttleFlags : List Bool) : Prop :=
  throttleFlags.count true ≤ 1

end audio_utils_fifo_reader

namespace audio_utils_fifo_writer

/-- Modelled from the spec: the fill/availability computation of
`audio_utils_fifo_writer::obtain` (declared at fifo.h line 211, implemented
outside this repository).  Spec section 4.4: with throttling, compute the
fill level by `diff` of the local rear and the throttling front and offer
`available = effectiveFrames - fill`; without throttling,
`available = count` (unbounded from the writer's view); the error
conditions are `-EIO` on corrupted indices detected by `diff`, and there is
no `-EOVERFLOW` path. -/
def obtain (N P F mEffectiveFrames mLocalRear : ℕ) (throttleFront : Option ℕ)
    (count : ℕ) : Except FifoError ℕ :=
  match throttleFront with
  | none => .ok count
  | some front =>
    match audio_utils_fifo_base.diff N P F mLocalRear front with
    | .ok fill => .ok (min count (mEffectiveFrames - fill))
    | .error _ => .error .ioError

/-- Modelled from the spec: section 4.4, `write` is repeated
obtain/memcpy/release; its transfer count is bounded by the request and its
only error exits are those of `obtain`. -/
def write (N P F mEffectiveFrames mLocalRear : ℕ) (throttleFront : Option ℕ)
    (count : ℕ) : Except FifoError ℕ :=
  Except.map (fun n => min n count)
    (obtain N P F mEffectiveFrames mLocalRear throttleFront count)

end audio_utils_fifo_writer

namespace audio_utils_fifo

/-- Modelled from the spec: the data movement of
`audio_utils_fifo_writer::write` (fifo.h lines 195-208) at frame
granularity.  Frames are opaque records; the buffer holds one frame per slot
in `[0, N)`; a write of a list of frames starting at slot `s` stores them at
consecutive slots, wrapping from slot `N - 1` to slot `0` (the wrap between
the spec's two iovec fragments). -/
def writeFrames {α : Type} (N : ℕ) : (ℕ → α) → ℕ → List α → (ℕ → α)
  | buf, _, [] => buf
  | buf, s, x :: xs =>
    writeFrames N (fun i => if i = s % N then x else buf i) ((s + 1) % N) xs

/-- Modelled from the spec: the data movement of
`audio_utils_fifo_reader::read` (fifo.h lines 241-254) at frame granularity:
a read of `k` frames starting at slot `s` returns the frames at consecutive
slots, wrapping from slot `N - 1` to slot `0`. -/
def readFrames {α : Type} (N : ℕ) (buf : ℕ → α) : ℕ → ℕ → List α
  | _, 0 => []
  | s, k + 1 => buf (s % N) :: readFrames N buf ((s + 1) % N) k

/-- Default value of the `throttlesWriter` parameter of the single-process
`audio_utils_fifo` constructor, fifo.h line 135. -/
def singleProcessThrottlesWriterDefault : Bool := false

/-- Throttling front index set up by the single-process constructor:
per fifo.h lines 148-149 the embedded `mSingleProcessSharedFront` is only
used when `throttlesWriter == true`; with `throttlesWriter == false` the
FIFO's `mThrottleFront` is NULL (`none`), so no shared front index is
provided. -/
def singleProcessThrottleFront (throttlesWriter : Bool) : Option Unit :=
  if throttlesWriter then some () else none

end audio_utils_fifo

/-- Fragment descriptor of the obtain interface, fifo.h lines 154-157:
one virtually contiguous fragment of a logically contiguous slice, with
offset and length counted in frames. -/
structure audio_utils_iovec where
  mOffset : ℕ
  mLength : ℕ
deriving DecidableEq

namespace audio_utils_fifo_provider

/-- Modelled from the spec: fragment layout of a successful `obtain`
(fifo.h line 177; spec sections 4.4 step 5, 4.5 step 4 and the section 4.5
tie-break): up to `min(count, available)` frames as one or two contiguous
fragments of the buffer, the second one only when the region wraps past the
end of the buffer at slot `N`. -/
def obtainFragments (N slotStart avail count : ℕ) : List audio_utils_iovec :=
  if min count avail = 0 then []
  else if min count avail ≤ N - slotStart then
    [⟨slotStart, min count avail⟩]
  else
    [⟨slotStart, N - slotStart⟩, ⟨0, min count avail - (N - slotStart)⟩]

/-- Timeout parameter of obtain/read/write, mirroring `struct timespec`. -/
structure timespec where
  tv_sec  : ℕ
  tv_nsec : ℕ
deriving DecidableEq

/-- Modelled from the spec: section 4.5 tie-break "A zero-field timeout and a
null timeout both mean non-blocking" (fifo.h lines 200 and 245): whether an
obtain may block at all. -/
def blockingAllowed : Option timespec → Bool
  | none => false
  | some t => !(t.tv_sec == 0 && t.tv_nsec == 0)

/-- Result of the suspension decision of obtain: either park on the peer's
index or return a transfer count. -/
inductive ObtainStep where
  | transfer (n : ℕ)
  | block
deriving DecidableEq

/-- Modelled from the spec: the suspension decision of obtain (section 5
suspension points; section 4.4 step 4, section 4.5 step 3): when no frame is
available and blocking is permitted, park on the peer's index; otherwise
return `min(count, available)` frames, zero when no progress is possible,
never an error. -/
def obtainStep (avail count : ℕ) (timeout : Option timespec) : ObtainStep :=
  if avail == 0 && blockingAllowed timeout then .block
  else .transfer (min count avail)

/-- Modelled from the spec: section 7, "Timeout expiry is not an error - it
is simply a short transfer": when the wait ends by expiry the obtain returns
the frames then available, possibly zero, as an ordinary nonnegative
count. -/
def obtainAfterExpiry (avail count : ℕ) : ObtainStep :=
  .transfer (min count avail)

/-- Endpoint operations that touch the `mObtained` counter (fifo.h lines
177-183). -/
inductive ProviderOp where
  | obtain (n : ℕ)
  | release (k : ℕ)
deriving DecidableEq

/-- Modelled from the spec: section 3 obtain state and section 4.6 -
`obtain` hands out at most `N` frames (`min(count, available)` with
`available ≤ N`) and sets `mObtained` to that number; `release(k)` requires
`k ≤ mObtained` and subtracts `k` from it.  `none` marks a precondition
violation. -/
def stepObtained (N mObtained : ℕ) : ProviderOp → Option ℕ
  | .obtain n => if n ≤ N then some n else none
  | .release k => if k ≤ mObtained then some (mObtained - k) else none

/-- Runs a sequence of obtain/release operations on the `mObtained`
counter. -/
def runObtained (N : ℕ) : ℕ → List ProviderOp → Option ℕ
  | ob, [] => some ob
  | ob, op :: ops =>
    match stepObtained N ob op with
    | none => none
    | some ob2 => runObtained N ob2 ops

end audio_utils_fifo_provider

section Theorems

open audio_utils_fifo_base

/-- Adding a raw index modulo the word size and then reducing modulo `P`
is reduction modulo `P`, because `P` divides `2 ^ 32`. -/
theorem sum_mod_p (P m : ℕ) (hm : m ≤ 32) (hP : P = 2 ^ m) (x : ℕ) :
    x % wordMod % P = x % P := by
  apply Nat.mod_mod_of_dvd
  rw [hP]
  exact pow_dvd_pow 2 hm

/-- The slot of `index + k + c` depends on `index` only through its slot. -/
theorem add_mod_slot (P : ℕ) (index k c : ℕ) :
    (index + k + c) % P = (index % P + k + c) % P := by
  conv_lhs => rw [← Nat.div_add_mod index P]
  have h : P * (index / P) + index % P + k + c
      = index % P + k + c + index / P * P := by ring
  rw [h, Nat.add_mul_mod_self_right]

/-- One step: `sum` keeps the slot of a validated index below `N`. -/
theorem sum_slot_step (N P F m : ℕ) (hm : m ≤ 32) (hP : P = 2 ^ m)
    (hNP : N ≤ P) (hF : F = P - N) (index k : ℕ)
    (hidx : index % P < N) (hk : k ≤ N) :
    sum N P F index k % P < N := by
  have hP0 : 0 < P := by rw [hP]; exact Nat.pos_pow_of_pos m (by norm_num)
  unfold sum
  rw [sum_mod_p P m hm hP]
  by_cases hc : N ≤ index % P + k
  · rw [if_pos hc, add_mod_slot]
    have h1 : P ≤ index % P + k + F := by omega
    have h2 : index % P + k + F - P < P := by omega
    rw [Nat.mod_eq_sub_mod h1, Nat.mod_eq_of_lt h2]
    omega
  · rw [if_neg hc, add_mod_slot]
    have h2 : index % P + k + 0 < P := by omega
    rw [Nat.mod_eq_of_lt h2]
    omega

/-- Slot correspondence of `sum`: advancing a validated raw index by `k`
advances its buffer slot by `k` modulo `N`; the skipped fudge values realise
the wrap of the backing buffer. -/
theorem sum_slot_mod (N P F m : ℕ) (hm : m ≤ 32) (hP : P = 2 ^ m)
    (hNP : N ≤ P) (hF : F = P - N) (index k : ℕ)
    (hidx : index % P < N) (hk : k ≤ N) :
    sum N P F index k % P = (index % P + k) % N := by
  have hP0 : 0 < P := by rw [hP]; exact Nat.pos_pow_of_pos m (by norm_num)
  unfold sum
  rw [sum_mod_p P m hm hP]
  by_cases hc : N ≤ index % P + k
  · rw [if_pos hc, add_mod_slot]
    have h1 : P ≤ index % P + k + F := by omega
    have h2 : index % P + k + F - P < P := by omega
    rw [Nat.mod_eq_sub_mod h1, Nat.mod_eq_of_lt h2]
    have h3 : N ≤ index % P + k := hc
    have h4 : index % P + k < 2 * N := by omega
    have h5 : index % P + k - N < N := by omega
    rw [Nat.mod_eq_sub_mod h3, Nat.mod_eq_of_lt h5]
    omega
  · rw [if_neg hc, add_mod_slot]
    have h2 : index % P + k + 0 < P := by omega
    rw [Nat.mod_eq_of_lt h2, Nat.mod_eq_of_lt (by omega : index % P + k < N)]
    omega

/-- Every raw index reachable from 0 by `sum` steps of at most `N` keeps its
slot below `N`, for any start whose slot is below `N`. -/
theorem foldl_sum_slot (N P F m : ℕ) (hm : m ≤ 32) (hP : P = 2 ^ m)
    (hNP : N ≤ P) (hF : F = P - N) (ks : List ℕ) :
    ∀ index, index % P < N → (∀ k ∈ ks, k ≤ N) →
      List.foldl (sum N P F) index ks % P < N := by
  induction ks with
  | nil => intro index hidx _; exact hidx
  | cons k ks ih =>
    intro index hidx hks
    simp only [List.foldl_cons]
    exact ih (sum N P F index k)
      (sum_slot_step N P F m hm hP hNP hF index k hidx
        (hks k (List.mem_cons_self k ks)))
      (fun j hj => hks j (List.mem_cons_of_mem k hj))

/-- C1: `sum(i, k)` with `0 ≤ k ≤ N` adds the fudge `F = P - N` exactly when
the new slot would exceed `N - 1` (this is the modelled definition of `sum`),
and consequently every raw index reachable from 0 by such steps has
`(raw index mod P) < N`, so the slot in the backing buffer is the cheap mask
`raw &&& (P - 1)`. -/
theorem sum_slot_invariant (N P F m : ℕ) (hm : m ≤ 32) (hP : P = 2 ^ m)
    (hN : 0 < N) (hNP : N ≤ P) (hF : F = P - N) (ks : List ℕ)
    (hks : ∀ k ∈ ks, k ≤ N) :
    List.foldl (sum N P F) 0 ks % P < N ∧
    List.foldl (sum N P F) 0 ks % P = List.foldl (sum N P F) 0 ks &&& (P - 1) := by
  constructor
  · exact foldl_sum_slot N P F m hm hP hNP hF ks 0 (by simpa using hN) hks
  · rw [hP]
    exact (Nat.and_pow_two_sub_one_eq_mod _ m).symm

/-- Witness for C1 at `N = 6`, `P = 8`, `F = 2` and the increment sequence
`[6, 5, 1, 6, 2]`. -/
theorem sum_slot_invariant_witness :
    List.foldl (audio_utils_fifo_base.sum 6 8 2) 0 [6, 5, 1, 6, 2] % 8 < 6 ∧
    List.foldl (audio_utils_fifo_base.sum 6 8 2) 0 [6, 5, 1, 6, 2] % 8 =
      List.foldl (audio_utils_fifo_base.sum 6 8 2) 0 [6, 5, 1, 6, 2] &&& (8 - 1) :=
  sum_slot_invariant 6 8 2 3 (by norm_num) (by norm_num) (by norm_num)
    (by norm_num) (by norm_num) [6, 5, 1, 6, 2] (by decide)

/-- C2: for all raw indices, `diff` returns either a frame count `d` with
`0 ≤ d ≤ N` or an error: never a value above `N`; a frames delta beyond `N`
(with a nonnegative signed raw delta) is the overflow report of a writer
that lapped the reader, and a negative signed raw delta is the I/O-error
report. -/
theorem diff_result_bounded (N P F rear front : ℕ) :
    match audio_utils_fifo_base.diff N P F rear front with
    | .ok d => d ≤ N
    | .error .eOverflow =>
        audio_utils_fifo_base.rawDelta rear front < 2 ^ 31 ∧
        N < audio_utils_fifo_base.framesDelta P F rear front
    | .error .ioError => 2 ^ 31 ≤ audio_utils_fifo_base.rawDelta rear front := by
  unfold audio_utils_fifo_base.diff
  by_cases h1 : 2 ^ 31 ≤ audio_utils_fifo_base.rawDelta rear front
  · rw [if_pos h1]
    exact h1
  · rw [if_neg h1]
    by_cases h2 : audio_utils_fifo_base.framesDelta P F rear front ≤ N
    · rw [if_pos h2]
      exact h2
    · rw [if_neg h2]
      exact ⟨by omega, by omega⟩

end Theorems

section Theorems2

open audio_utils_fifo_base

/-- Resynchronising to `rear - N` restores a legal fill: the raw delta from
the new front back to the rear is exactly `N`, and `diff` accepts it. -/
theorem diff_after_resync (N P rear : ℕ) (F : ℕ) (hN : 0 < N)
    (hN31 : N < 2 ^ 31) (hNP : N ≤ P) (hF : F = P - N)
    (hrear : rear < 2 ^ 32) :
    diff N P F rear ((rear + wordMod - N) % wordMod) = .ok N := by
  have h32 : wordMod = 4294967296 := by norm_num [wordMod]
  have h31 : (2 : ℕ) ^ 31 = 2147483648 := by norm_num
  have hraw : rawDelta rear ((rear + wordMod - N) % wordMod) = N := by
    unfold rawDelta
    rw [h32] at *
    omega
  have hframes : framesDelta P F rear ((rear + wordMod - N) % wordMod) = N := by
    unfold framesDelta
    rw [hraw]
    rcases Nat.lt_or_ge N P with h | h
    · rw [Nat.div_eq_of_lt h]
      omega
    · have hEq : N = P := le_antisymm hNP h
      have hF0 : F = 0 := by omega
      rw [hF0]
      omega
  unfold diff
  rw [hraw, hframes, if_neg (by omega), if_pos (le_refl N)]

/-- C3: when the reader's obtain finds that the writer lapped it (`diff`
reports overflow), it reports `-EOVERFLOW`, resynchronises its local front
to `rear - N` (the oldest still-valid frame), stores the drop estimate
through `lost` exactly when the pointer is non-NULL, continues with
`fill = N`, and the subsequent `diff` of the same rear against the
resynchronised front succeeds (with the full fill `N`), so later
obtain/read calls succeed. -/
theorem reader_overflow_resync (N P F rear front : ℕ) (wantLost : Bool)
    (hN : 0 < N) (hN31 : N < 2 ^ 31)
    (hNP : N ≤ P) (hF : F = P - N) (hrear : rear < 2 ^ 32)
    (hov : audio_utils_fifo_base.diff N P F rear front = .error .eOverflow) :
    (audio_utils_fifo_reader.obtainSync N P F rear front wantLost).err
      = some .eOverflow ∧
    (audio_utils_fifo_reader.obtainSync N P F rear front wantLost).newFront
      = (rear + 2 ^ 32 - N) % 2 ^ 32 ∧
    (audio_utils_fifo_reader.obtainSync N P F rear front wantLost).fill = N ∧
    (audio_utils_fifo_reader.obtainSync N P F rear front wantLost).lost
      = (if wantLost then some (audio_utils_fifo_base.diffLost N P F rear front)
         else none) ∧
    audio_utils_fifo_base.diff N P F rear
      ((audio_utils_fifo_reader.obtainSync N P F rear front wantLost).newFront)
      = .ok N := by
  unfold audio_utils_fifo_reader.obtainSync
  rw [hov]
  refine ⟨rfl, rfl, rfl, rfl, ?_⟩
  exact diff_after_resync N P rear F hN hN31 hNP hF hrear

/-- Witness for C3 at `N = 6`, `P = 8`, `F = 2`, `rear = 20`, `front = 0`:
the writer has lapped the reader (frames delta 16 > 6); the reader
resynchronises to raw front 14 and the next `diff` returns the full
fill 6. -/
theorem reader_overflow_resync_witness :
    (audio_utils_fifo_reader.obtainSync 6 8 2 20 0 true).err
      = some .eOverflow ∧
    (audio_utils_fifo_reader.obtainSync 6 8 2 20 0 true).newFront
      = (20 + 2 ^ 32 - 6) % 2 ^ 32 ∧
    (audio_utils_fifo_reader.obtainSync 6 8 2 20 0 true).fill = 6 ∧
    (audio_utils_fifo_reader.obtainSync 6 8 2 20 0 true).lost
      = (if true then some (audio_utils_fifo_base.diffLost 6 8 2 20 0)
         else none) ∧
    audio_utils_fifo_base.diff 6 8 2 20
      ((audio_utils_fifo_reader.obtainSync 6 8 2 20 0 true).newFront)
      = .ok 6 :=
  reader_overflow_resync 6 8 2 20 0 true (by norm_num)
    (by norm_num) (by norm_num) (by norm_num) (by norm_num) rfl

end Theorems2

section Theorems3

/-- Writing frames never disturbs a slot that none of the written frames
lands on. -/
theorem writeFrames_notin {α : Type} (N : ℕ) (L : List α) :
    ∀ (buf : ℕ → α) (s t : ℕ), (∀ j < L.length, (s + j) % N ≠ t) →
      audio_utils_fifo.writeFrames N buf s L t = buf t := by
  induction L with
  | nil => intro buf s t _; rfl
  | cons x xs ih =>
    intro buf s t h
    simp only [audio_utils_fifo.writeFrames]
    have hrest : ∀ j < xs.length, ((s + 1) % N + j) % N ≠ t := by
      intro j hj
      have h2 := h (j + 1) (by simp; omega)
      rw [Nat.mod_add_mod]
      have he : s + 1 + j = s + (j + 1) := by ring
      rw [he]
      exact h2
    rw [ih _ ((s + 1) % N) t hrest]
    have h0 : s % N ≠ t := by
      have := h 0 (by simp)
      simpa using this
    exact if_neg (fun he => h0 he.symm)

/-- C4: write-then-read is the identity on the transferred frames: a
sequence of at most `N` frames written by a single `write` starting at any
slot is read back exactly, in order, contiguously across the wrap (the
boundary between the two iovec fragments). -/
theorem write_read_roundtrip {α : Type} (N : ℕ) (L : List α)
    (hL : L.length ≤ N) (buf : ℕ → α) (s : ℕ) :
    audio_utils_fifo.readFrames N (audio_utils_fifo.writeFrames N buf s L) s
      L.length = L := by
  induction L generalizing buf s with
  | nil => rfl
  | cons x xs ih =>
    simp only [audio_utils_fifo.writeFrames, List.length_cons,
      audio_utils_fifo.readFrames]
    have hhead : audio_utils_fifo.writeFrames N
        (fun i => if i = s % N then x else buf i) ((s + 1) % N) xs (s % N)
        = x := by
      rw [writeFrames_notin N xs _ ((s + 1) % N) (s % N) ?_]
      · simp
      intro j hj heq
      rw [Nat.mod_add_mod] at heq
      have hmodeq : s + (1 + j) ≡ s [MOD N] := by
        unfold Nat.ModEq
        rw [← heq]
        ring_nf
      have hdvd : N ∣ 1 + j := by
        have hd := (Nat.modEq_iff_dvd' (Nat.le_add_right s (1 + j))).mp
          hmodeq.symm
        simpa using hd
      have hle := Nat.le_of_dvd (by omega) hdvd
      simp only [List.length_cons] at hL
      omega
    have htail := ih (by simp at hL ⊢; omega)
      (fun i => if i = s % N then x else buf i) ((s + 1) % N)
    rw [hhead, htail]

/-- Witness for C4 at `N = 6`, four frames written starting at slot 4, so
the transfer wraps across the end of the buffer. -/
theorem write_read_roundtrip_witness :
    audio_utils_fifo.readFrames 6
      (audio_utils_fifo.writeFrames 6 (fun _ => (0 : ℕ)) 4 [10, 20, 30, 40])
      4 4 = [10, 20, 30, 40] :=
  write_read_roundtrip 6 [10, 20, 30, 40] (by norm_num)
    (fun _ => (0 : ℕ)) 4

end Theorems3

section Theorems4

/-- C5: a successful obtain describes up to `min(count, available)` frames
as at most two fragments whose lengths add up to the transferred count; a
second fragment appears only when the region wraps past the end of the
buffer, and when the contiguous tail region alone satisfies the request,
exactly one fragment is returned. -/
theorem obtain_fragments_shape (N slotStart avail count : ℕ) :
    (audio_utils_fifo_provider.obtainFragments N slotStart avail count).length
      ≤ 2 ∧
    (List.map audio_utils_iovec.mLength
      (audio_utils_fifo_provider.obtainFragments N slotStart avail count)).sum
      = min count avail ∧
    ((audio_utils_fifo_provider.obtainFragments N slotStart avail count).length
        = 2 → N - slotStart < min count avail) ∧
    (0 < min count avail → min count avail ≤ N - slotStart →
      (audio_utils_fifo_provider.obtainFragments N slotStart avail count).length
        = 1) := by
  unfold audio_utils_fifo_provider.obtainFragments
  by_cases h0 : min count avail = 0
  · rw [if_pos h0]
    exact ⟨by simp, by simp [h0], by simp, fun h _ => absurd h0 (by omega)⟩
  · rw [if_neg h0]
    by_cases h1 : min count avail ≤ N - slotStart
    · rw [if_pos h1]
      exact ⟨by simp, by simp, by simp, fun _ _ => by simp⟩
    · rw [if_neg h1]
      refine ⟨by simp, ?_, fun _ => by omega, fun _ h => absurd h h1⟩
      simp only [List.map_cons, List.map_nil, List.sum_cons, List.sum_nil]
      omega

/-- C6: the writer's obtain and write never report overflow: on every input
their only possible error is the I/O error produced when `diff` detects
corrupted indices. -/
theorem writer_no_overflow (N P F eff rear count : ℕ) (tf : Option ℕ) :
    (match audio_utils_fifo_writer.obtain N P F eff rear tf count with
     | .ok _ => True
     | .error e => e = FifoError.ioError) ∧
    (match audio_utils_fifo_writer.write N P F eff rear tf count with
     | .ok _ => True
     | .error e => e = FifoError.ioError) := by
  unfold audio_utils_fifo_writer.write audio_utils_fifo_writer.obtain
  rcases tf with _ | front
  · exact ⟨trivial, trivial⟩
  · cases h : audio_utils_fifo_base.diff N P F rear front with
    | ok fill => simp [h, Except.map]
    | error e => simp [h, Except.map]

/-- C7: a NULL timeout and an all-zero timeout are the same non-blocking
obtain: the call returns `min(count, available)` instead of parking, in
particular `0` when no progress is possible, and expiry of a timed wait
yields an ordinary short (possibly zero) transfer, never an error. -/
theorem timeout_nonblocking_equiv (avail count : ℕ) :
    audio_utils_fifo_provider.obtainStep avail count none
      = audio_utils_fifo_provider.obtainStep avail count (some ⟨0, 0⟩) ∧
    audio_utils_fifo_provider.obtainStep avail count none
      = .transfer (min count avail) ∧
    audio_utils_fifo_provider.obtainStep 0 count none = .transfer 0 ∧
    audio_utils_fifo_provider.obtainAfterExpiry avail count
      = .transfer (min count avail) := by
  refine ⟨?_, ?_, ?_, rfl⟩ <;>
    simp [audio_utils_fifo_provider.obtainStep,
      audio_utils_fifo_provider.blockingAllowed]

/-- C8: the `mObtained` counter stays within `0 ≤ mObtained ≤ N` under every
sequence of obtain and release operations that respects the release
precondition `k ≤ mObtained`. -/
theorem obtained_invariant (N : ℕ)
    (ops : List audio_utils_fifo_provider.ProviderOp) :
    ∀ ob0, ob0 ≤ N → ∀ res,
      audio_utils_fifo_provider.runObtained N ob0 ops = some res → res ≤ N := by
  induction ops with
  | nil =>
    intro ob0 h0 res hres
    simp [audio_utils_fifo_provider.runObtained] at hres
    omega
  | cons op ops ih =>
    intro ob0 h0 res hres
    simp only [audio_utils_fifo_provider.runObtained] at hres
    cases op with
    | obtain n =>
      simp only [audio_utils_fifo_provider.stepObtained] at hres
      by_cases hn : n ≤ N
      · rw [if_pos hn] at hres
        exact ih n hn res hres
      · rw [if_neg hn] at hres
        simp at hres
    | release k =>
      simp only [audio_utils_fifo_provider.stepObtained] at hres
      by_cases hk : k ≤ ob0
      · rw [if_pos hk] at hres
        exact ih (ob0 - k) (by omega) res hres
      · rw [if_neg hk] at hres
        simp at hres

/-- Witness for C8: a run at `N = 6` from `mObtained = 0` through obtain 6,
release 2, release 4, obtain 3 ends at 3, within the invariant. -/
theorem obtained_invariant_witness :
    audio_utils_fifo_provider.runObtained 6 0
      [.obtain 6, .release 2, .release 4, .obtain 3] = some 3 ∧ (3 : ℕ) ≤ 6 :=
  ⟨rfl, obtained_invariant 6 [.obtain 6, .release 2, .release 4, .obtain 3] 0
    (by norm_num) 3 rfl⟩

/-- C9: a reader's `release(k)` advances the local front by `k` via `sum`;
a throttling reader publishes exactly that value to the shared front and
runs the trigger state machine (wake and disarm when armed and the
post-release fill is at most the low-level trigger; rearm when the fill
reaches the high-level arm threshold); a non-throttling reader never
publishes and never wakes. -/
theorem reader_release_trigger (N P F low high rear k : ℕ)
    (s : audio_utils_fifo_reader.ReaderState) :
    ((audio_utils_fifo_reader.release N P F low high rear s k).state.mLocalFront
        = audio_utils_fifo_base.sum N P F s.mLocalFront k) ∧
    (s.throttles = true →
      (audio_utils_fifo_reader.release N P F low high rear s k).published
        = some (audio_utils_fifo_base.sum N P F s.mLocalFront k)) ∧
    (s.throttles = true → s.mArmed = true →
      audio_utils_fifo_base.framesDelta P F rear
          (audio_utils_fifo_base.sum N P F s.mLocalFront k) ≤ low →
      (audio_utils_fifo_reader.release N P F low high rear s k).wake = true ∧
      (audio_utils_fifo_reader.release N P F low high rear s k).state.mArmed
        = false) ∧
    (s.throttles = true → s.mArmed = false →
      high ≤ audio_utils_fifo_base.framesDelta P F rear
          (audio_utils_fifo_base.sum N P F s.mLocalFront k) →
      (audio_utils_fifo_reader.release N P F low high rear s k).state.mArmed
        = true) ∧
    (s.throttles = false →
      (audio_utils_fifo_reader.release N P F low high rear s k).published
        = none ∧
      (audio_utils_fifo_reader.release N P F low high rear s k).wake
        = false) := by
  obtain ⟨lf, th, ar⟩ := s
  cases th <;> cases ar <;>
    by_cases h1 : audio_utils_fifo_base.framesDelta P F rear
        (audio_utils_fifo_base.sum N P F lf k) ≤ low <;>
    by_cases h2 : high ≤ audio_utils_fifo_base.framesDelta P F rear
        (audio_utils_fifo_base.sum N P F lf k) <;>
    simp [audio_utils_fifo_reader.release, h1, h2]

/-- C10: the reader constructor's `throttlesWriter` defaults to `true` while
the single-process FIFO constructor's `throttlesWriter` defaults to `false`,
so a caller who uses both defaults pairs a reader that claims to throttle
with a FIFO whose throttling front index is NULL; and the documented
constraint admits at most one reader with `throttlesWriter == true` per
FIFO. -/
theorem ctor_defaults_mismatch :
    audio_utils_fifo_reader.throttlesWriterDefault = true ∧
    audio_utils_fifo.singleProcessThrottlesWriterDefault = false ∧
    audio_utils_fifo.singleProcessThrottleFront
        audio_utils_fifo.singleProcessThrottlesWriterDefault = none ∧
    audio_utils_fifo.singleProcessThrottleFront
        audio_utils_fifo_reader.throttlesWriterDefault ≠ none ∧
    audio_utils_fifo_reader.atMostOneThrottlingReader
      [audio_utils_fifo_reader.throttlesWriterDefault] ∧
    ¬ audio_utils_fifo_reader.atMostOneThrottlingReader [true, true] := by
  refine ⟨rfl, rfl, rfl, ?_, ?_, ?_⟩
  · unfold audio_utils_fifo.singleProcessThrottleFront
      audio_utils_fifo_reader.throttlesWriterDefault
    simp
  · unfold audio_utils_fifo_reader.atMostOneThrottlingReader
      audio_utils_fifo_reader.throttlesWriterDefault
    decide
  · unfold audio_utils_fifo_reader.atMostOneThrottlingReader
    decide

end Theorems4
